import Mathlib

/-!
Shallow embedding of the undo engine of `src/include/chainbase/chainrocks.hpp`.

The C++ `index` class owns a unique-key container `_indices` mapping an
embedded 64-bit id to a record, a counter `_next_id`, a signed counter
`_revision`, and a deque `_stack` of `undo_state` frames.  Records are
modelled as values of an arbitrary type `V`; the container is modelled as
the function `live : Nat → Option V` (the spec calls it `live`), keyed by
the record's embedded id.  The deque is modelled as a list whose head is
the deque's *back* (the top frame); `commit` pops the deque's *front*,
i.e. the end of the list.

Each loop of `undo` and `squash` touches the target collections only at
the key of the current iteration element, and distinct iteration elements
of a `std::map`/`std::set` have distinct keys, so the loops are embedded
pointwise per id.  `std::map::emplace` inserts only when the key is
absent and otherwise keeps the existing entry; `mapEmplace` mirrors that.
-/

namespace Chainrocks

/-- Frame of the undo stack, mirroring C++ `undo_state<value_type>`:
`_old_values`, `_removed_values`, `_new_indexes` (called `new_ids` at the
use sites of `index`), `_old_next_index`, `_revision`. -/
structure UndoState (V : Type) where
  old_values : Nat → Option V
  removed_values : Nat → Option V
  new_ids : Nat → Bool
  old_next_id : Nat
  revision : Int

/-- State of the C++ `index` class: `_stack` (head of the list is the
top/back of the deque), `_indices` (the live id→record container),
`_next_id` and `_revision`. -/
structure index (V : Type) where
  stack : List (UndoState V)
  live : Nat → Option V
  next_id : Nat
  revision : Int

variable {V : Type}

/-- Insert-or-overwrite at key `k` (C++ `operator[]`-style assignment, and
the effect of a successful container insert at an absent key). -/
def mapSet (m : Nat → Option V) (k : Nat) (v : V) : Nat → Option V :=
  fun x => if x = k then some v else m x

/-- Erase key `k` (C++ `std::map::erase`). -/
def mapErase (m : Nat → Option V) (k : Nat) : Nat → Option V :=
  fun x => if x = k then none else m x

/-- C++ `std::map::emplace`: inserts `(k, v)` only when `k` is absent;
when `k` is present the existing entry is kept. -/
def mapEmplace (m : Nat → Option V) (k : Nat) (v : V) : Nat → Option V :=
  fun x => if x = k then (match m k with | some w => some w | none => some v) else m x

/-- C++ `std::set::insert`. -/
def setInsert (s : Nat → Bool) (k : Nat) : Nat → Bool :=
  fun x => if x = k then true else s x

/-- C++ `std::set::erase`. -/
def setErase (s : Nat → Bool) (k : Nat) : Nat → Bool :=
  fun x => if x = k then false else s x

/-- Fresh empty frame as pushed by `index::start_undo_session(true)`:
empty collections, `old_next_id` and `revision` stamped by the caller. -/
def emptyFrame (onx : Nat) (rev : Int) : UndoState V :=
  { old_values := fun _ => none
    removed_values := fun _ => none
    new_ids := fun _ => false
    old_next_id := onx
    revision := rev }

/-- C++ `index::on_create` (chainrocks.hpp:471-477): if the stack is
non-empty, record the id in the top frame's `new_ids`. -/
def on_create (id : Nat) (s : index V) : index V :=
  match s.stack with
  | [] => s
  | f :: rest => { s with stack := { f with new_ids := setInsert f.new_ids id } :: rest }

/-- C++ `index::on_modify` (chainrocks.hpp:420-437): if the stack is
non-empty and the id is neither in the top frame's `new_ids` nor already
in its `old_values`, the current value `v` is captured into
`old_values[id]`. -/
def on_modify (id : Nat) (v : V) (s : index V) : index V :=
  match s.stack with
  | [] => s
  | f :: rest =>
    if f.new_ids id then s
    else
      match f.old_values id with
      | some _ => s
      | none => { s with stack := { f with old_values := mapEmplace f.old_values id v } :: rest }

/-- C++ `index::on_remove` (chainrocks.hpp:442-466): resolve the id
against the top frame: drop from `new_ids`, else move the `old_values`
entry into `removed_values`, else no-op when already in `removed_values`,
else capture the current value `v` into `removed_values`. -/
def on_remove (id : Nat) (v : V) (s : index V) : index V :=
  match s.stack with
  | [] => s
  | f :: rest =>
    if f.new_ids id then
      { s with stack := { f with new_ids := setErase f.new_ids id } :: rest }
    else
      match f.old_values id with
      | some p =>
        { s with stack :=
            { f with removed_values := mapEmplace f.removed_values id p
                     old_values := mapErase f.old_values id } :: rest }
      | none =>
        if (f.removed_values id).isSome then s
        else { s with stack := { f with removed_values := mapEmplace f.removed_values id v } :: rest }

/-- C++ `index::emplace` (chainrocks.hpp:84-99): construct the record at
id `_next_id` via `c`, insert it (a present id is a uniqueness violation:
the insert fails, an exception is thrown and the state is unchanged),
then `++_next_id` and `on_create`. -/
def emplace (c : Nat → V) (s : index V) : index V :=
  if (s.live s.next_id).isSome then s
  else
    on_create s.next_id
      { s with live := mapSet s.live s.next_id (c s.next_id), next_id := s.next_id + 1 }

/-- C++ `index::modify` (chainrocks.hpp:105-113): `on_modify` with the
record's current value, then apply the modifier in place.  The C++ call
site holds a reference to a live record, so the id is present; an absent
id is undefined behaviour there and embedded as a no-op. -/
def modify (id : Nat) (m : V → V) (s : index V) : index V :=
  match s.live id with
  | none => s
  | some v =>
    let s1 := on_modify id v s
    { s1 with live := mapSet s1.live id (m v) }

/-- C++ `index::remove` (chainrocks.hpp:118-122): `on_remove` with the
record's current value, then erase it from the container.  As with
`modify`, the C++ call site holds a reference to a live record. -/
def remove (id : Nat) (s : index V) : index V :=
  match s.live id with
  | none => s
  | some v =>
    let s1 := on_remove id v s
    { s1 with live := mapErase s1.live id }

/-- Effect on the live container of undoing one frame
(chainrocks.hpp:249-266), composed pointwise: first every id in
`new_ids` is erased, then every `old_values` entry overwrites the
record found at its id, then every `removed_values` entry is re-inserted
with `emplace` (keeping an existing entry; the C++ aborts in that case,
which the stack invariants rule out). -/
def undoLive (f : UndoState V) (live : Nat → Option V) : Nat → Option V :=
  fun id =>
    let l1 : Option V := if f.new_ids id then none else live id
    let l2 : Option V :=
      match f.old_values id with
      | some p => some p
      | none => l1
    match f.removed_values id, l2 with
    | none, x => x
    | some _, some w => some w
    | some v, none => some v

/-- C++ `index::undo` (chainrocks.hpp:242-270): no-op when the stack is
empty, otherwise revert the top frame's mutations, restore
`_next_id := old_next_id`, pop the frame and decrement `_revision`. -/
def undo (s : index V) : index V :=
  match s.stack with
  | [] => s
  | f :: rest =>
    { stack := rest
      live := undoLive f s.live
      next_id := f.old_next_id
      revision := s.revision - 1 }

/-- Merge of the top frame `T` into the frame `P` below it, as performed
by C++ `index::squash` (chainrocks.hpp:286-336).  The three loops run in
program order; each touches `P` only at the key of the current element of
the corresponding collection of `T`, so they are embedded pointwise:
`old1`/`new1` are `P.old_values`/`P.new_ids` after the first two loops,
and the final fields apply the `removed_values` loop on top of them. -/
def squashFrames (T P : UndoState V) : UndoState V :=
  let old1 : Nat → Option V := fun id =>
    match T.old_values id with
    | none => P.old_values id
    | some y =>
      if P.new_ids id then P.old_values id
      else
        match P.old_values id with
        | some _ => P.old_values id
        | none => some y
  let new1 : Nat → Bool := fun id => P.new_ids id || T.new_ids id
  let old2 : Nat → Option V := fun id =>
    match T.removed_values id with
    | none => old1 id
    | some _ =>
      if new1 id then old1 id
      else
        match old1 id with
        | some _ => none
        | none => old1 id
  let rem2 : Nat → Option V := fun id =>
    match T.removed_values id with
    | none => P.removed_values id
    | some y =>
      if new1 id then P.removed_values id
      else
        match old1 id with
        | some x =>
          match P.removed_values id with
          | some w => some w
          | none => some x
        | none =>
          match P.removed_values id with
          | some w => some w
          | none => some y
  let new2 : Nat → Bool := fun id =>
    match T.removed_values id with
    | none => new1 id
    | some _ => if new1 id then false else new1 id
  { old_values := old2
    removed_values := rem2
    new_ids := new2
    old_next_id := P.old_next_id
    revision := P.revision }

/-- C++ `index::squash` (chainrocks.hpp:275-340): no-op on an empty
stack; with a single frame, pop it and decrement `_revision`; otherwise
merge the top frame into the one below it, pop, and decrement
`_revision`. -/
def squash (s : index V) : index V :=
  match s.stack with
  | [] => s
  | [_] => { s with stack := [], revision := s.revision - 1 }
  | T :: P :: rest => { s with stack := squashFrames T P :: rest, revision := s.revision - 1 }

/-- C++ `index::commit` (chainrocks.hpp:345-350): pop frames from the
front (bottom) of the deque while the bottom frame's revision is `≤ r`.
Nothing else changes. -/
def commit (r : Int) (s : index V) : index V :=
  { s with stack := (s.stack.reverse.dropWhile (fun f => decide (f.revision ≤ r))).reverse }

/-- Error outcomes of C++ `index::set_revision` (chainrocks.hpp:364-374),
both raised as exceptions before any state is written. -/
inductive RevisionError where
  | stackNotEmpty : RevisionError
  | revisionOutOfRange : RevisionError
deriving DecidableEq

/-- Largest value of a signed 64-bit integer,
`std::numeric_limits<int64_t>::max()`. -/
def int64_max : Nat := 2 ^ 63 - 1

/-- C++ `index::set_revision` (chainrocks.hpp:364-374): throws
`StackNotEmpty` when the undo stack is non-empty, then throws
`RevisionOutOfRange` when the unsigned argument exceeds the signed 64-bit
maximum, and otherwise stores the revision. -/
def set_revision (r : Nat) (s : index V) : Except RevisionError (index V) :=
  if s.stack.length ≠ 0 then Except.error RevisionError.stackNotEmpty
  else if int64_max < r then Except.error RevisionError.revisionOutOfRange
  else Except.ok { s with revision := (r : Int) }

/-- Handle returned by `index::start_undo_session`
(chainrocks.hpp:150-219): the `_apply` flag and the stamped `_revision`.
The referenced index is carried separately in the embedding. -/
structure session where
  apply : Bool
  revision : Int
deriving DecidableEq

/-- C++ `index::start_undo_session` (chainrocks.hpp:221-233): when
enabled, push a fresh frame stamped `old_next_id := _next_id` and
`revision := ++_revision` and return an armed handle carrying the new
revision; otherwise return a disarmed handle carrying `-1` and leave the
index unchanged. -/
def start_undo_session (enabled : Bool) (s : index V) : session × index V :=
  if enabled then
    ({ apply := true, revision := s.revision + 1 },
     { s with stack := emptyFrame s.next_id (s.revision + 1) :: s.stack,
              revision := s.revision + 1 })
  else
    ({ apply := false, revision := -1 }, s)

/-- C++ `index::session::operator=(session&&)` (chainrocks.hpp:185-198).
`same` is `this == &mv`.  The target's `_index` reference cannot be
reseated, so the `undo` performed when the target is still armed runs on
the target's index `idx`; only `_apply` is transferred (the target keeps
its own `_revision`).  Returns (target, source, target's index). -/
def session_move_assign (same : Bool) (tgt src : session) (idx : index V) :
    session × session × index V :=
  if same then (tgt, src, idx)
  else
    ({ tgt with apply := src.apply },
     { src with apply := false },
     if tgt.apply then undo idx else idx)

/-- Composite session of C++ `rocksdb_database::session`
(chainrocks.hpp:614-666): the collected sub-session handles and the
composite `_revision`, which the constructor takes from the first
sub-session when any were collected and otherwise leaves at `-1`. -/
structure database_session where
  index_sessions : List session
  revision : Int
deriving DecidableEq

/-- C++ `rocksdb_database::session::session(vector&&)`
(chainrocks.hpp:622-627). -/
def make_database_session (subs : List session) : database_session :=
  { index_sessions := subs
    revision :=
      match subs with
      | sub :: _ => sub.revision
      | [] => -1 }

/-- Undo-engine state of C++ `rocksdb_database`: the registered index
list (`_index_list`), in registration order. -/
structure database (V : Type) where
  index_list : List (index V)

/-- C++ `rocksdb_database::start_undo_session` (chainrocks.hpp:668-679):
when enabled, collect one sub-session per registered index (each opened
with `enabled = true`) and build the composite session from them; when
not enabled, return a default-constructed session with no sub-sessions
(and composite revision `-1`), leaving every index untouched. -/
def db_start_undo_session (enabled : Bool) (db : database V) : database_session × database V :=
  if enabled then
    (make_database_session (db.index_list.map (fun i => (start_undo_session true i).1)),
     { index_list := db.index_list.map (fun i => (start_undo_session true i).2) })
  else
    ({ index_sessions := [], revision := -1 }, db)

/-- Mutation requests against an `index`, for stating properties about
sequences of public operations.  The `emplace` constructor is applied at
the allocated id, like the C++ constructor callback. -/
inductive Op (V : Type) where
  | emplace : (Nat → V) → Op V
  | modify : Nat → (V → V) → Op V
  | remove : Nat → Op V

/-- Legality of one operation: `modify`/`remove` are called through a
reference to a live record in C++, and a legal `emplace` does not collide
with an existing id (otherwise it throws and changes nothing). -/
def legalOp : Op V → index V → Bool
  | Op.emplace _, s => (s.live s.next_id).isNone
  | Op.modify id _, s => (s.live id).isSome
  | Op.remove id, s => (s.live id).isSome

/-- Apply one operation. -/
def applyOp : Op V → index V → index V
  | Op.emplace c, s => emplace c s
  | Op.modify id m, s => modify id m s
  | Op.remove id, s => remove id s

/-- Apply a sequence of operations in order. -/
def applyOps : List (Op V) → index V → index V
  | [], s => s
  | op :: rest, s => applyOps rest (applyOp op s)

/-- Legality of a sequence of operations, each against the state produced
by its predecessors. -/
def legalSeq : List (Op V) → index V → Bool
  | [], _ => true
  | op :: rest, s => legalOp op s && legalSeq rest (applyOp op s)

/-- Freshly constructed index (C++ `index::index`): empty stack, empty
container, `next_id = 0`, `revision = 0`. -/
def index.initial (V : Type) : index V :=
  { stack := [], live := fun _ => none, next_id := 0, revision := 0 }

/-- Example index with one live record `0 ↦ 3` and no undo stack. -/
def exIdxA : index Nat :=
  { stack := [], live := fun x => if x = 0 then some 3 else none, next_id := 1, revision := 0 }

/-- Example top frame: record 0 (pre-image 5) removed during this frame. -/
def exFrameT : UndoState Nat :=
  { old_values := fun _ => none
    removed_values := fun x => if x = 0 then some 5 else none
    new_ids := fun _ => false
    old_next_id := 1
    revision := 2 }

/-- Example lower frame: record 0 modified during this frame (pre-image 3). -/
def exFrameP : UndoState Nat :=
  { old_values := fun x => if x = 0 then some 3 else none
    removed_values := fun _ => none
    new_ids := fun _ => false
    old_next_id := 1
    revision := 1 }

/-- Example index with two stacked frames (`exFrameT` on top). -/
def exIdxTP : index Nat :=
  { stack := [exFrameT, exFrameP], live := fun _ => none, next_id := 1, revision := 2 }

/-- Example index whose single frame records the creation of id 0. -/
def exIdxNew : index Nat :=
  { stack := [{ old_values := fun _ => none
                removed_values := fun _ => none
                new_ids := fun x => x == 0
                old_next_id := 0
                revision := 1 }]
    live := fun x => if x = 0 then some 7 else none
    next_id := 1
    revision := 1 }

/-- Example operation sequence: create a record, modify it twice, create
another record and remove the first. -/
def exOps : List (Op Nat) :=
  [Op.emplace (fun _ => 10), Op.modify 0 (fun v => v + 1),
   Op.modify 0 (fun v => v * 2), Op.emplace (fun n => n), Op.remove 0]

/-- Consistency of the top frame with the live container, maintained by
every legal mutation once a frame is opened (a fresh frame satisfies it
vacuously): an id with a captured pre-image has no removal pre-image,
and an id with a removal pre-image is not live unless it was re-created
within the frame. -/
def topInv (f : UndoState V) (live : Nat → Option V) : Prop :=
  ∀ id : Nat,
    ((f.old_values id).isSome → f.removed_values id = none) ∧
    ((f.removed_values id).isSome → live id = none ∨ f.new_ids id = true)

/-- Pairwise id-disjointness of a frame's three collections: an id is
new, or modified, or removed within a frame, never two of these at
once. -/
def disjointFrame (f : UndoState V) : Prop :=
  ∀ id : Nat,
    ((f.old_values id).isSome → f.new_ids id = false) ∧
    ((f.old_values id).isSome → f.removed_values id = none) ∧
    ((f.removed_values id).isSome → f.new_ids id = false)

/-- Every live id is below the allocation counter. -/
def liveBound (live : Nat → Option V) (nid : Nat) : Prop :=
  ∀ id : Nat, (live id).isSome → id < nid

/-- Consistency of one frame with the live state current while it is the
top of the stack (`nid` is the current allocation counter): pre-image
ids predate the frame, new ids were allocated during it, the collections
are disjoint, removed records are not live, modified and new records are
live, and every live id allocated during the frame is in `new_ids`. -/
def frameOk (live : Nat → Option V) (nid : Nat) (f : UndoState V) : Prop :=
  f.old_next_id ≤ nid ∧
  (∀ id : Nat, (f.old_values id).isSome → id < f.old_next_id) ∧
  (∀ id : Nat, (f.removed_values id).isSome → id < f.old_next_id) ∧
  (∀ id : Nat, f.new_ids id = true → f.old_next_id ≤ id ∧ id < nid) ∧
  disjointFrame f ∧
  (∀ id : Nat, (f.removed_values id).isSome → live id = none) ∧
  (∀ id : Nat, (f.old_values id).isSome → (live id).isSome) ∧
  (∀ id : Nat, f.new_ids id = true → (live id).isSome) ∧
  (∀ id : Nat, (live id).isSome → f.old_next_id ≤ id → f.new_ids id = true)

/-- Stack invariant, stated recursively: the top frame is consistent
with the current live state, and the remainder of the stack is
consistent with the live state obtained by undoing the top frame (which
is the live state current when the top frame was opened). -/
def framesInv (live : Nat → Option V) (nid : Nat) : List (UndoState V) → Prop
  | [] => liveBound live nid
  | f :: rest =>
      liveBound live nid ∧ frameOk live nid f ∧
        framesInv (undoLive f live) f.old_next_id rest

/-- Full index invariant. -/
def Inv (s : index V) : Prop :=
  framesInv s.live s.next_id s.stack

/-- Iterated `undo`. -/
def undoTimes : Nat → index V → index V
  | 0, s => s
  | n + 1, s => undoTimes n (undo s)

/-- C++ `index::undo_all` (chainrocks.hpp:355-359): `undo` until the
stack is empty; each `undo` on a non-empty stack pops exactly one frame,
so the loop runs once per frame. -/
def undo_all (s : index V) : index V :=
  undoTimes s.stack.length s

/-- States reachable from a freshly constructed index by successful
public operations: legal mutations, session opening, `undo`, `squash`,
`commit`, `undo_all` and successful `set_revision`. -/
inductive Reachable : index V → Prop where
  | init : Reachable (index.initial V)
  | step_op (s : index V) (op : Op V) :
      Reachable s → legalOp op s = true → Reachable (applyOp op s)
  | step_start (s : index V) (e : Bool) :
      Reachable s → Reachable (start_undo_session e s).2
  | step_undo (s : index V) : Reachable s → Reachable (undo s)
  | step_squash (s : index V) : Reachable s → Reachable (squash s)
  | step_commit (s : index V) (r : Int) : Reachable s → Reachable (commit r s)
  | step_undo_all (s : index V) : Reachable s → Reachable (undo_all s)
  | step_set_revision (s s' : index V) (r : Nat) :
      Reachable s → set_revision r s = Except.ok s' → Reachable s'

theorem dropWhile_append_of_forall {α : Type} (p : α → Bool) (l1 l2 : List α)
    (h : ∀ x ∈ l1, p x = true) : (l1 ++ l2).dropWhile p = l2.dropWhile p := by
  induction l1 with
  | nil => simp
  | cons a l ih =>
    simp only [List.cons_append, List.dropWhile_cons]
    rw [h a (by simp)]
    simpa using ih (fun x hx => h x (by simp [hx]))

theorem dropWhile_eq_self_of_head {α : Type} (p : α → Bool) (l : List α)
    (h : ∀ x, l.head? = some x → p x = false) : l.dropWhile p = l := by
  cases l with
  | nil => rfl
  | cons a l =>
    simp only [List.dropWhile_cons]
    rw [h a rfl]
    simp

/-- C3: for every index state and revision `r`, `commit r` removes exactly
the frames at the bottom of the stack whose stored revision is `≤ r`
(the maximal such bottom run, written here through an arbitrary split of
the bottom-first stack), and leaves `live`, `next_id`, the remaining
frames and the index's `revision` counter unchanged. -/
theorem commit_drops_bottom_frames (s : index V) (r : Int) (B T : List (UndoState V))
    (hsplit : s.stack.reverse = B ++ T)
    (hB : ∀ f ∈ B, f.revision ≤ r)
    (hT : ∀ f, T.head? = some f → r < f.revision) :
    (commit r s).stack.reverse = T ∧ (commit r s).live = s.live ∧
      (commit r s).next_id = s.next_id ∧ (commit r s).revision = s.revision := by
  have hdrop : s.stack.reverse.dropWhile (fun f => decide (f.revision ≤ r)) = T := by
    rw [hsplit, dropWhile_append_of_forall _ _ _ (fun x hx => decide_eq_true (hB x hx)),
      dropWhile_eq_self_of_head _ _ (fun x hx => decide_eq_false (not_le.mpr (hT x hx)))]
  exact ⟨by simp [commit, hdrop], rfl, rfl, rfl⟩

theorem commit_drops_bottom_frames_witness :
    exIdxTP.stack.reverse = [exFrameP] ++ [exFrameT] ∧
      (commit 1 exIdxTP).stack.reverse = [exFrameT] ∧ (commit 1 exIdxTP).live = exIdxTP.live :=
  ⟨rfl,
   (commit_drops_bottom_frames exIdxTP 1 [exFrameP] [exFrameT] rfl
      (by intro f hf; rw [List.mem_singleton.mp hf]; decide)
      (by intro f hf; rw [show f = exFrameT by simpa using hf.symm]; decide)).1,
   (commit_drops_bottom_frames exIdxTP 1 [exFrameP] [exFrameT] rfl
      (by intro f hf; rw [List.mem_singleton.mp hf]; decide)
      (by intro f hf; rw [show f = exFrameT by simpa using hf.symm]; decide)).2.1⟩

/-- C7: `set_revision r` throws `StackNotEmpty` when the undo stack is
non-empty, throws `RevisionOutOfRange` when `r` exceeds the signed 64-bit
maximum, and otherwise succeeds with `revision` set to `r` (so
`revision()` reads back `r`); the error cases return before any state is
written. -/
theorem set_revision_spec (s : index V) (r : Nat) :
    (s.stack ≠ [] → set_revision r s = Except.error RevisionError.stackNotEmpty) ∧
    (s.stack = [] → int64_max < r →
      set_revision r s = Except.error RevisionError.revisionOutOfRange) ∧
    (s.stack = [] → r ≤ int64_max →
      set_revision r s = Except.ok { s with revision := (r : Int) } ∧
      ∀ s', set_revision r s = Except.ok s' →
        s'.revision = (r : Int) ∧ s'.stack = s.stack ∧ s'.live = s.live ∧
          s'.next_id = s.next_id) := by
  refine ⟨fun h => ?_, fun h hr => ?_, fun h hr => ⟨?_, fun s' hs' => ?_⟩⟩
  · simp [set_revision, h]
  · simp [set_revision, h, hr]
  · simp [set_revision, h, not_lt.mpr hr]
  · simp [set_revision, h, not_lt.mpr hr] at hs'
    subst hs'
    exact ⟨rfl, h.symm, rfl, rfl⟩

theorem set_revision_spec_witness :
    set_revision 5 exIdxA = Except.ok { exIdxA with revision := ((5 : Nat) : Int) } ∧
      set_revision 5 exIdxTP = Except.error RevisionError.stackNotEmpty :=
  ⟨((set_revision_spec exIdxA 5).2.2 rfl (by decide)).1,
   (set_revision_spec exIdxTP 5).1 (by intro h; simp [exIdxTP] at h)⟩

/-- C9: for every stack with at least two frames, `squash` folds the top
frame into the lower frame in place: the lower frame's `old_next_id`
(and its stamped `revision`) are unchanged in the merged frame. -/
theorem squash_keeps_lower_frame_bounds (s : index V) (T P : UndoState V)
    (rest : List (UndoState V)) (h : s.stack = T :: P :: rest) :
    (squash s).stack = squashFrames T P :: rest ∧
      (squashFrames T P).old_next_id = P.old_next_id ∧
      (squashFrames T P).revision = P.revision := by
  refine ⟨?_, rfl, rfl⟩
  cases s
  subst h
  rfl

theorem squash_keeps_lower_frame_bounds_witness :
    (squash exIdxTP).stack = squashFrames exFrameT exFrameP :: [] ∧
      (squashFrames exFrameT exFrameP).old_next_id = exFrameP.old_next_id :=
  ⟨(squash_keeps_lower_frame_bounds exIdxTP exFrameT exFrameP [] rfl).1,
   (squash_keeps_lower_frame_bounds exIdxTP exFrameT exFrameP [] rfl).2.1⟩

/-- C10: move-assigning one index session handle onto another first
performs `undo()` on the target's index if the target is still armed,
then transfers the source's armed flag to the target and disarms the
source; self-assignment changes nothing. -/
theorem session_move_assign_spec (same : Bool) (tgt src : session) (idx : index V) :
    (same = true → session_move_assign same tgt src idx = (tgt, src, idx)) ∧
    (same = false →
      (session_move_assign same tgt src idx).1 = { tgt with apply := src.apply } ∧
      (session_move_assign same tgt src idx).2.1 = { src with apply := false } ∧
      (tgt.apply = true → (session_move_assign same tgt src idx).2.2 = undo idx) ∧
      (tgt.apply = false → (session_move_assign same tgt src idx).2.2 = idx)) := by
  constructor
  · intro h
    subst h
    rfl
  · intro h
    subst h
    refine ⟨rfl, rfl, fun ha => ?_, fun ha => ?_⟩ <;> simp [session_move_assign, ha]

theorem session_move_assign_spec_witness :
    (session_move_assign false { apply := true, revision := 1 }
        { apply := false, revision := 2 } exIdxNew).2.2 = undo exIdxNew ∧
      (session_move_assign false { apply := true, revision := 1 }
        { apply := false, revision := 2 } exIdxNew).1 =
        { apply := false, revision := 1 } :=
  ⟨((session_move_assign_spec false { apply := true, revision := 1 }
      { apply := false, revision := 2 } exIdxNew).2 rfl).2.2.1 rfl,
   ((session_move_assign_spec false { apply := true, revision := 1 }
      { apply := false, revision := 2 } exIdxNew).2 rfl).1⟩

theorem on_modify_live (id : Nat) (v : V) (s : index V) :
    (on_modify id v s).live = s.live := by
  unfold on_modify
  rcases s.stack with _ | ⟨f, rest⟩
  · rfl
  · dsimp only
    split
    · rfl
    · split <;> rfl

theorem modify_stack_empty (s : index V) (id : Nat) (m : V → V) (hs : s.stack = []) :
    (modify id m s).stack = [] := by
  unfold modify
  rcases hv : s.live id with _ | v
  · exact hs
  · simp [on_modify, hs]

theorem modify_stack_skip (s : index V) (id : Nat) (m : V → V) (f : UndoState V)
    (rest : List (UndoState V)) (hs : s.stack = f :: rest)
    (h : f.new_ids id = true ∨ (f.old_values id).isSome) :
    (modify id m s).stack = s.stack := by
  unfold modify
  rcases hv : s.live id with _ | v
  · rfl
  · rcases h with hnew | hold
    · simp [on_modify, hs, hnew]
    · obtain ⟨p, hp⟩ := Option.isSome_iff_exists.mp hold
      by_cases hnew : f.new_ids id <;> simp [on_modify, hs, hnew, hp]

theorem modify_stack_capture (s : index V) (id : Nat) (v : V) (m : V → V) (f : UndoState V)
    (rest : List (UndoState V)) (hs : s.stack = f :: rest) (hv : s.live id = some v)
    (hnew : f.new_ids id = false) (hold : f.old_values id = none) :
    (modify id m s).stack = { f with old_values := mapEmplace f.old_values id v } :: rest := by
  simp [modify, hv, on_modify, hs, hnew, hold]

/-- C5: `modify` captures the current value into the top frame's
`old_values` only when a frame exists and the id is neither in the
frame's `new_ids` nor already in its `old_values`; with no frame, or on
a hit in either collection, the frame bookkeeping is unchanged, and a
second `modify` of the same record within the frame never changes the
stack. -/
theorem modify_captures_first_preimage (s : index V) (id : Nat) (v : V) (m m2 : V → V)
    (hv : s.live id = some v) :
    (s.stack = [] → (modify id m s).stack = []) ∧
    (∀ f rest, s.stack = f :: rest →
      ((f.new_ids id = true ∨ (f.old_values id).isSome) →
        (modify id m s).stack = s.stack) ∧
      (f.new_ids id = false → f.old_values id = none →
        (modify id m s).stack =
          { f with old_values := mapEmplace f.old_values id v } :: rest)) ∧
    (modify id m2 (modify id m s)).stack = (modify id m s).stack := by
  refine ⟨fun h => modify_stack_empty s id m h,
    fun f rest hs => ⟨fun h => modify_stack_skip s id m f rest hs h,
      fun hnew hold => modify_stack_capture s id v m f rest hs hv hnew hold⟩, ?_⟩
  rcases hstack : s.stack with _ | ⟨f, rest⟩
  · have h1 : (modify id m s).stack = [] := modify_stack_empty s id m hstack
    rw [modify_stack_empty _ id m2 h1, h1]
  · by_cases hnew : f.new_ids id
    · have h1 : (modify id m s).stack = f :: rest := by
        rw [modify_stack_skip s id m f rest hstack (Or.inl hnew), hstack]
      rw [modify_stack_skip _ id m2 f rest h1 (Or.inl hnew), h1]
    · rcases hold : f.old_values id with _ | p
      · have h1 : (modify id m s).stack =
            { f with old_values := mapEmplace f.old_values id v } :: rest :=
          modify_stack_capture s id v m f rest hstack hv (by simpa using hnew) hold
        rw [modify_stack_skip _ id m2 _ rest h1 (Or.inr (by simp [mapEmplace, hold])), h1]
      · have h1 : (modify id m s).stack = f :: rest := by
          rw [modify_stack_skip s id m f rest hstack (Or.inr (by simp [hold])), hstack]
        rw [modify_stack_skip _ id m2 f rest h1 (Or.inr (by simp [hold])), h1]

theorem modify_captures_first_preimage_witness :
    exIdxA.live 0 = some 3 ∧
      (modify 0 (fun v => v + 1) (modify 0 (fun v => v + 1) exIdxA)).stack =
        (modify 0 (fun v => v + 1) exIdxA).stack :=
  ⟨rfl, (modify_captures_first_preimage exIdxA 0 3 (fun v => v + 1) (fun v => v + 1)
    rfl).2.2⟩

theorem on_remove_live (id : Nat) (v : V) (s : index V) :
    (on_remove id v s).live = s.live := by
  unfold on_remove
  rcases s.stack with _ | ⟨f, rest⟩
  · rfl
  · dsimp only
    split
    · rfl
    · split
      · rfl
      · split <;> rfl

/-- C6: `remove` resolves the record's id against the top frame in
order: (a) an id in `new_ids` is dropped from `new_ids`; (b) else an
`old_values` entry is moved into `removed_values` and deleted from
`old_values`; (c) else an id already in `removed_values` leaves the
frame unchanged; (d) otherwise the current value is captured into
`removed_values`; and in every case the record is erased from `live`. -/
theorem remove_resolution (s : index V) (id : Nat) (v : V) (hv : s.live id = some v) :
    (remove id s).live id = none ∧
    (s.stack = [] → (remove id s).stack = []) ∧
    (∀ f rest, s.stack = f :: rest →
      (f.new_ids id = true →
        (remove id s).stack = { f with new_ids := setErase f.new_ids id } :: rest) ∧
      (f.new_ids id = false → ∀ p, f.old_values id = some p →
        (remove id s).stack =
          { f with removed_values := mapEmplace f.removed_values id p
                   old_values := mapErase f.old_values id } :: rest) ∧
      (f.new_ids id = false → f.old_values id = none → (f.removed_values id).isSome →
        (remove id s).stack = s.stack) ∧
      (f.new_ids id = false → f.old_values id = none → f.removed_values id = none →
        (remove id s).stack =
          { f with removed_values := mapEmplace f.removed_values id v } :: rest)) := by
  refine ⟨?_, fun h => ?_, fun f rest hs => ⟨fun hnew => ?_, fun hnew p hp => ?_,
    fun hnew hold hrem => ?_, fun hnew hold hrem => ?_⟩⟩
  · simp [remove, hv, on_remove_live, mapErase]
  · rcases hv2 : s.live id with _ | w
    · simp [remove, hv2, h]
    · simp [remove, hv2, on_remove, h]
  · simp [remove, hv, on_remove, hs, hnew]
  · simp [remove, hv, on_remove, hs, hnew, hp]
  · obtain ⟨w, hw⟩ := Option.isSome_iff_exists.mp hrem
    simp [remove, hv, on_remove, hs, hnew, hold, hw]
  · simp [remove, hv, on_remove, hs, hnew, hold, hrem]

theorem remove_resolution_witness :
    exIdxNew.live 0 = some 7 ∧ (remove 0 exIdxNew).live 0 = none :=
  ⟨rfl, (remove_resolution exIdxNew 0 7 rfl).1⟩

/-- C2: `squash` with exactly one frame pops that frame and decrements
`revision`; with two or more frames it merges the top frame `T` into the
frame `P` below it, pops `T` and decrements `revision`, where for every
`(id, Y)` in `T.removed_values` (with `T`'s collections disjoint at the
id, as the stack invariants guarantee): an id in `P.new_ids` is erased
from `P.new_ids`; else an `old_values` entry of `P` moves to
`P.removed_values` keeping `P`'s pre-image and is erased from
`P.old_values`; else (the slot being free, as asserted) `(id, Y)` is
inserted into `P.removed_values`. -/
theorem squash_spec (s : index V) :
    (∀ f, s.stack = [f] →
      squash s = { s with stack := [], revision := s.revision - 1 }) ∧
    (∀ T P rest, s.stack = T :: P :: rest →
      (squash s).stack = squashFrames T P :: rest ∧
      (squash s).revision = s.revision - 1 ∧
      (∀ id y, T.removed_values id = some y → T.old_values id = none →
          T.new_ids id = false →
        (P.new_ids id = true →
          (squashFrames T P).new_ids id = false ∧
          (squashFrames T P).old_values id = P.old_values id ∧
          (squashFrames T P).removed_values id = P.removed_values id) ∧
        (P.new_ids id = false → ∀ x, P.old_values id = some x →
          P.removed_values id = none →
          (squashFrames T P).removed_values id = some x ∧
          (squashFrames T P).old_values id = none) ∧
        (P.new_ids id = false → P.old_values id = none →
          P.removed_values id = none →
          (squashFrames T P).removed_values id = some y))) := by
  constructor
  · intro f h
    cases s
    subst h
    rfl
  · intro T P rest h
    refine ⟨?_, ?_, ?_⟩
    · cases s
      subst h
      rfl
    · cases s
      subst h
      rfl
    · intro id y hrem holdT hnewT
      refine ⟨fun hnewP => ⟨?_, ?_, ?_⟩, fun hnewP x holdP hremP => ⟨?_, ?_⟩,
        fun hnewP holdP hremP => ?_⟩ <;>
        simp [squashFrames, hrem, holdT, hnewT, hnewP, *]

theorem squash_spec_witness :
    exFrameT.removed_values 0 = some 5 ∧
      (squashFrames exFrameT exFrameP).removed_values 0 = some 3 ∧
      (squashFrames exFrameT exFrameP).old_values 0 = none ∧
      squash exIdxNew = { exIdxNew with stack := [], revision := exIdxNew.revision - 1 } :=
  ⟨rfl,
   (((squash_spec exIdxTP).2 exFrameT exFrameP [] rfl).2.2 0 5 rfl rfl rfl).2.1 rfl 3 rfl rfl |>.1,
   (((squash_spec exIdxTP).2 exFrameT exFrameP [] rfl).2.2 0 5 rfl rfl rfl).2.1 rfl 3 rfl rfl |>.2,
   (squash_spec exIdxNew).1 _ rfl⟩

/-- C4 counterexample: `rocksdb_database::start_undo_session(false)`
returns a default-constructed composite session with no sub-sessions at
all, so with one registered index the number of opened sub-sessions (0)
differs from the number of registered indices (1); sub-sessions are not
opened uniformly for every value of `enabled`. -/
theorem db_start_not_uniform :
    ¬ ((db_start_undo_session false
          { index_list := [index.initial Nat] }).1.index_sessions.length =
        ({ index_list := [index.initial Nat] } : database Nat).index_list.length) := by
  decide

/-- C4 (amended): when `enabled` is true, `start_undo_session` opens one
sub-session per registered index and takes the composite revision from
the first sub-session (or `-1` when there are no indices); when
`enabled` is false it opens no sub-sessions and the composite revision
is `-1`. -/
theorem db_start_sub_sessions (db : database V) :
    ((db_start_undo_session true db).1.index_sessions.length =
      db.index_list.length) ∧
    ((db_start_undo_session true db).1.index_sessions =
      db.index_list.map (fun i => (start_undo_session true i).1)) ∧
    (∀ i tl, db.index_list = i :: tl →
      (db_start_undo_session true db).1.revision =
        (start_undo_session true i).1.revision) ∧
    (db.index_list = [] → (db_start_undo_session true db).1.revision = -1) ∧
    ((db_start_undo_session false db).1.index_sessions.length = 0) ∧
    ((db_start_undo_session false db).1.revision = -1) := by
  refine ⟨by simp [db_start_undo_session, make_database_session], rfl,
    fun i tl h => ?_, fun h => ?_, rfl, rfl⟩
  · simp [db_start_undo_session, make_database_session, h]
  · simp [db_start_undo_session, make_database_session, h]

theorem db_start_sub_sessions_witness :
    (db_start_undo_session true
        ({ index_list := [index.initial Nat] } : database Nat)).1.index_sessions.length =
      ({ index_list := [index.initial Nat] } : database Nat).index_list.length ∧
    (db_start_undo_session true
        ({ index_list := [index.initial Nat] } : database Nat)).1.revision =
      (start_undo_session true (index.initial Nat)).1.revision :=
  ⟨(db_start_sub_sessions { index_list := [index.initial Nat] }).1,
   (db_start_sub_sessions { index_list := [index.initial Nat] }).2.2.1
     (index.initial Nat) [] rfl⟩

theorem undo_cons (s : index V) (f : UndoState V) (rest : List (UndoState V))
    (hs : s.stack = f :: rest) :
    undo s = { stack := rest, live := undoLive f s.live, next_id := f.old_next_id,
               revision := s.revision - 1 } := by
  cases s
  subst hs
  rfl

theorem emplace_step (c : Nat → V) (s : index V) (f : UndoState V)
    (rest : List (UndoState V)) (hs : s.stack = f :: rest)
    (hnone : s.live s.next_id = none) (hinv : topInv f s.live) :
    (emplace c s).stack = { f with new_ids := setInsert f.new_ids s.next_id } :: rest ∧
    (emplace c s).live = mapSet s.live s.next_id (c s.next_id) ∧
    (emplace c s).revision = s.revision ∧
    topInv { f with new_ids := setInsert f.new_ids s.next_id } (emplace c s).live ∧
    undoLive { f with new_ids := setInsert f.new_ids s.next_id } (emplace c s).live =
      undoLive f s.live := by
  have hstack : (emplace c s).stack =
      { f with new_ids := setInsert f.new_ids s.next_id } :: rest := by
    simp [emplace, hnone, on_create, hs]
  have hlive : (emplace c s).live = mapSet s.live s.next_id (c s.next_id) := by
    simp [emplace, hnone, on_create, hs]
  have hrev : (emplace c s).revision = s.revision := by
    simp [emplace, hnone, on_create, hs]
  refine ⟨hstack, hlive, hrev, ?_, ?_⟩
  · rw [hlive]
    intro j
    refine ⟨(hinv j).1, fun hr => ?_⟩
    by_cases hj : j = s.next_id
    · subst hj
      right
      simp [setInsert]
    · rcases (hinv j).2 hr with h | h
      · left
        simp [mapSet, hj, h]
      · right
        simp [setInsert, hj, h]
  · rw [hlive]
    funext j
    by_cases hj : j = s.next_id
    · subst hj
      rcases hfo : f.old_values s.next_id with _ | p <;>
        rcases hfr : f.removed_values s.next_id with _ | w <;>
          rcases hb : f.new_ids s.next_id with _ | _ <;>
            simp [undoLive, hfo, hfr, hb, setInsert, mapSet, hnone]
    · simp [undoLive, setInsert, mapSet, hj]

theorem modify_step (id : Nat) (m : V → V) (v : V) (s : index V) (f : UndoState V)
    (rest : List (UndoState V)) (hs : s.stack = f :: rest) (hv : s.live id = some v)
    (hinv : topInv f s.live) :
    ∃ f', (modify id m s).stack = f' :: rest ∧
      f'.old_next_id = f.old_next_id ∧
      (modify id m s).revision = s.revision ∧
      topInv f' (modify id m s).live ∧
      undoLive f' (modify id m s).live = undoLive f s.live := by
  have hlive : (modify id m s).live = mapSet s.live id (m v) := by
    simp [modify, hv, on_modify_live]
  by_cases hnew : f.new_ids id = true
  · refine ⟨f, by simp [modify, hv, on_modify, hs, hnew], rfl, by simp [modify, hv, on_modify, hs, hnew], ?_, ?_⟩
    · rw [hlive]
      intro j
      refine ⟨(hinv j).1, fun hr => ?_⟩
      by_cases hj : j = id
      · subst hj
        right
        exact hnew
      · rcases (hinv j).2 hr with h | h
        · left
          simp [mapSet, hj, h]
        · right
          exact h
    · rw [hlive]
      funext j
      by_cases hj : j = id
      · subst hj
        rcases hfo : f.old_values j with _ | p <;>
          rcases hfr : f.removed_values j with _ | w <;>
            simp [undoLive, hfo, hfr, hnew, mapSet]
      · simp [undoLive, mapSet, hj]
  · replace hnew : f.new_ids id = false := by simpa using hnew
    rcases hold : f.old_values id with _ | p
    · -- first capture of the pre-image
      have hrem : f.removed_values id = none := by
        rcases hfr : f.removed_values id with _ | w
        · rfl
        · rcases (hinv id).2 (by simp [hfr]) with h | h
          · rw [hv] at h
            cases h
          · rw [hnew] at h
            cases h
      refine ⟨{ f with old_values := mapEmplace f.old_values id v },
        by simp [modify, hv, on_modify, hs, hnew, hold], rfl,
        by simp [modify, hv, on_modify, hs, hnew, hold], ?_, ?_⟩
      · rw [hlive]
        intro j
        constructor
        · intro ho
          by_cases hj : j = id
          · subst hj
            exact hrem
          · exact (hinv j).1 (by simpa [mapEmplace, hj] using ho)
        · intro hr
          by_cases hj : j = id
          · subst hj
            rw [hrem] at hr
            cases hr
          · rcases (hinv j).2 hr with h | h
            · left
              simp [mapSet, hj, h]
            · right
              exact h
      · rw [hlive]
        funext j
        by_cases hj : j = id
        · subst hj
          rcases hfr : f.removed_values j with _ | w <;>
            simp [undoLive, hfr, hold, hnew, mapEmplace, mapSet, hv]
        · simp [undoLive, mapEmplace, mapSet, hj]
    · -- pre-image already captured: no bookkeeping change
      refine ⟨f, by simp [modify, hv, on_modify, hs, hnew, hold], rfl,
        by simp [modify, hv, on_modify, hs, hnew, hold], ?_, ?_⟩
      · rw [hlive]
        intro j
        refine ⟨(hinv j).1, fun hr => ?_⟩
        by_cases hj : j = id
        · subst hj
          rw [(hinv j).1 (by simp [hold])] at hr
          cases hr
        · rcases (hinv j).2 hr with h | h
          · left
            simp [mapSet, hj, h]
          · right
            exact h
      · rw [hlive]
        funext j
        by_cases hj : j = id
        · subst hj
          rcases hfr : f.removed_values j with _ | w <;>
            simp [undoLive, hfr, hold, mapSet]
        · simp [undoLive, mapSet, hj]

theorem remove_step (id : Nat) (v : V) (s : index V) (f : UndoState V)
    (rest : List (UndoState V)) (hs : s.stack = f :: rest) (hv : s.live id = some v)
    (hinv : topInv f s.live) :
    ∃ f', (remove id s).stack = f' :: rest ∧
      f'.old_next_id = f.old_next_id ∧
      (remove id s).revision = s.revision ∧
      topInv f' (remove id s).live ∧
      undoLive f' (remove id s).live = undoLive f s.live := by
  have hlive : (remove id s).live = mapErase s.live id := by
    simp [remove, hv, on_remove_live]
  by_cases hnew : f.new_ids id = true
  · -- (a) creation within the frame is erased
    refine ⟨{ f with new_ids := setErase f.new_ids id },
      by simp [remove, hv, on_remove, hs, hnew], rfl,
      by simp [remove, hv, on_remove, hs, hnew], ?_, ?_⟩
    · rw [hlive]
      intro j
      refine ⟨(hinv j).1, fun hr => ?_⟩
      by_cases hj : j = id
      · subst hj
        left
        simp [mapErase]
      · rcases (hinv j).2 hr with h | h
        · left
          simp [mapErase, hj, h]
        · right
          simp [setErase, hj, h]
    · rw [hlive]
      funext j
      by_cases hj : j = id
      · subst hj
        rcases hfo : f.old_values j with _ | p <;>
          rcases hfr : f.removed_values j with _ | w <;>
            simp [undoLive, hfo, hfr, hnew, setErase, mapErase]
      · simp [undoLive, setErase, mapErase, hj]
  · replace hnew : f.new_ids id = false := by simpa using hnew
    rcases hold : f.old_values id with _ | p
    · rcases hfr : f.removed_values id with _ | w
      · -- (d) fresh removal pre-image is captured
        refine ⟨{ f with removed_values := mapEmplace f.removed_values id v },
          by simp [remove, hv, on_remove, hs, hnew, hold, hfr], rfl,
          by simp [remove, hv, on_remove, hs, hnew, hold, hfr], ?_, ?_⟩
        · rw [hlive]
          intro j
          constructor
          · intro ho
            by_cases hj : j = id
            · subst hj
              rw [hold] at ho
              cases ho
            · simpa [mapEmplace, hj] using (hinv j).1 ho
          · intro hr
            by_cases hj : j = id
            · subst hj
              left
              simp [mapErase]
            · rcases (hinv j).2 (by simpa [mapEmplace, hj] using hr) with h | h
              · left
                simp [mapErase, hj, h]
              · right
                exact h
        · rw [hlive]
          funext j
          by_cases hj : j = id
          · subst hj
            simp [undoLive, hfr, hold, hnew, mapEmplace, mapErase, hv]
          · simp [undoLive, mapEmplace, mapErase, hj]
      · -- (c) impossible under the invariant: the record is live
        exfalso
        rcases (hinv id).2 (by simp [hfr]) with h | h
        · rw [hv] at h
          cases h
        · rw [hnew] at h
          cases h
    · -- (b) the captured pre-image becomes the removal pre-image
      have hrem : f.removed_values id = none := (hinv id).1 (by simp [hold])
      refine ⟨{ f with removed_values := mapEmplace f.removed_values id p
                       old_values := mapErase f.old_values id },
        by simp [remove, hv, on_remove, hs, hnew, hold], rfl,
        by simp [remove, hv, on_remove, hs, hnew, hold], ?_, ?_⟩
      · rw [hlive]
        intro j
        constructor
        · intro ho
          by_cases hj : j = id
          · subst hj
            simp [mapErase] at ho
          · have := (hinv j).1 (by simpa [mapErase, hj] using ho)
            simp [mapEmplace, hj, this]
        · intro hr
          by_cases hj : j = id
          · subst hj
            left
            simp [mapErase]
          · rcases (hinv j).2 (by simpa [mapEmplace, hj] using hr) with h | h
            · left
              simp [mapErase, hj, h]
            · right
              exact h
      · rw [hlive]
        funext j
        by_cases hj : j = id
        · subst hj
          simp [undoLive, hrem, hold, hnew, mapEmplace, mapErase]
        · simp [undoLive, mapEmplace, mapErase, hj]

theorem applyOp_step (op : Op V) (s : index V) (f : UndoState V)
    (rest : List (UndoState V)) (hs : s.stack = f :: rest) (hl : legalOp op s = true)
    (hinv : topInv f s.live) :
    ∃ f', (applyOp op s).stack = f' :: rest ∧
      f'.old_next_id = f.old_next_id ∧
      (applyOp op s).revision = s.revision ∧
      topInv f' (applyOp op s).live ∧
      undoLive f' (applyOp op s).live = undoLive f s.live := by
  cases op with
  | emplace c =>
    have hnone : s.live s.next_id = none := by
      simpa [legalOp, Option.isNone_iff_eq_none] using hl
    obtain ⟨h1, _, h3, h4, h5⟩ := emplace_step c s f rest hs hnone hinv
    exact ⟨_, h1, rfl, h3, h4, h5⟩
  | modify id m =>
    obtain ⟨v, hv⟩ := Option.isSome_iff_exists.mp (by simpa [legalOp] using hl)
    exact modify_step id m v s f rest hs hv hinv
  | remove id =>
    obtain ⟨v, hv⟩ := Option.isSome_iff_exists.mp (by simpa [legalOp] using hl)
    exact remove_step id v s f rest hs hv hinv

theorem applyOps_undo (ops : List (Op V)) :
    ∀ (s : index V) (f : UndoState V) (rest : List (UndoState V)),
      s.stack = f :: rest → topInv f s.live → legalSeq ops s = true →
      undo (applyOps ops s) = undo s := by
  induction ops with
  | nil => intro s f rest _ _ _; rfl
  | cons op ops ih =>
    intro s f rest hs hinv hl
    rw [legalSeq, Bool.and_eq_true] at hl
    obtain ⟨f', h1, h2, h3, h4, h5⟩ := applyOp_step op s f rest hs hl.1 hinv
    have hrec := ih (applyOp op s) f' rest h1 h4 hl.2
    calc undo (applyOps (op :: ops) s) = undo (applyOps ops (applyOp op s)) := rfl
      _ = undo (applyOp op s) := hrec
      _ = undo s := by
          rw [undo_cons (applyOp op s) f' rest h1, undo_cons s f rest hs, h5, h2, h3]

/-- C1: for every index state and every legal sequence of
`emplace`/`modify`/`remove` performed after `start_undo_session true`, a
subsequent `undo` restores `live` and `next_id` to their values at the
moment the session was opened, returns `revision` to its prior value,
and leaves the rest of the stack as it was (in particular an empty
session followed by `undo` is the identity). -/
theorem undo_round_trip (s0 : index V) (ops : List (Op V))
    (h : legalSeq ops (start_undo_session true s0).2 = true) :
    (undo (applyOps ops (start_undo_session true s0).2)).live = s0.live ∧
    (undo (applyOps ops (start_undo_session true s0).2)).next_id = s0.next_id ∧
    (undo (applyOps ops (start_undo_session true s0).2)).revision = s0.revision ∧
    (undo (applyOps ops (start_undo_session true s0).2)).stack = s0.stack := by
  have hs1 : (start_undo_session true s0).2.stack =
      emptyFrame s0.next_id (s0.revision + 1) :: s0.stack := rfl
  have hinv : topInv (emptyFrame s0.next_id (s0.revision + 1) : UndoState V)
      (start_undo_session true s0).2.live := by
    intro id
    simp [emptyFrame]
  have hmain := applyOps_undo ops _ _ _ hs1 hinv h
  rw [hmain, undo_cons _ _ _ hs1]
  refine ⟨?_, rfl, ?_, rfl⟩
  · funext j
    simp [undoLive, emptyFrame, start_undo_session]
  · show (start_undo_session true s0).2.revision - 1 = s0.revision
    show s0.revision + 1 - 1 = s0.revision
    omega

theorem undo_round_trip_witness :
    legalSeq exOps (start_undo_session true exIdxA).2 = true ∧
      (undo (applyOps exOps (start_undo_session true exIdxA).2)).next_id = exIdxA.next_id ∧
      (undo (applyOps exOps (start_undo_session true exIdxA).2)).revision = exIdxA.revision :=
  ⟨by decide,
   (undo_round_trip exIdxA exOps (by decide)).2.1,
   (undo_round_trip exIdxA exOps (by decide)).2.2.1⟩

theorem undo_nil (s : index V) (hs : s.stack = []) : undo s = s := by
  cases s
  subst hs
  rfl

theorem framesInv_liveBound (live : Nat → Option V) (nid : Nat) (l : List (UndoState V))
    (h : framesInv live nid l) : liveBound live nid := by
  cases l with
  | nil => exact h
  | cons f rest => exact h.1

theorem framesInv_disjoint (live : Nat → Option V) (nid : Nat) (l : List (UndoState V))
    (h : framesInv live nid l) : ∀ f ∈ l, disjointFrame f := by
  induction l generalizing live nid with
  | nil => intro f hf; cases hf
  | cons g rest ih =>
    intro f hf
    rcases List.mem_cons.mp hf with rfl | hf'
    · exact h.2.1.2.2.2.2.1
    · exact ih _ _ h.2.2 f hf'

theorem framesInv_append (live : Nat → Option V) (nid : Nat) (l1 l2 : List (UndoState V))
    (h : framesInv live nid (l1 ++ l2)) : framesInv live nid l1 := by
  induction l1 generalizing live nid with
  | nil => exact framesInv_liveBound live nid l2 h
  | cons f l1 ih =>
    obtain ⟨h1, h2, h3⟩ := h
    exact ⟨h1, h2, ih _ _ h3⟩

theorem undoLive_emptyFrame (onx : Nat) (rev : Int) (live : Nat → Option V) :
    undoLive (emptyFrame onx rev : UndoState V) live = live := rfl

theorem Inv_initial : Inv (index.initial V) := by
  intro id h
  simp [index.initial] at h

theorem Inv_start (s : index V) (e : Bool) (h : Inv s) : Inv (start_undo_session e s).2 := by
  cases e
  · exact h
  · have hlb : liveBound s.live s.next_id := framesInv_liveBound _ _ _ h
    refine ⟨hlb, ⟨le_refl _, ?_, ?_, ?_, ?_, ?_, ?_, ?_, ?_⟩, ?_⟩
    · intro id hid
      simp [emptyFrame] at hid
    · intro id hid
      simp [emptyFrame] at hid
    · intro id hid
      simp [emptyFrame] at hid
    · intro id
      refine ⟨fun hid => ?_, fun hid => ?_, fun hid => ?_⟩ <;> simp [emptyFrame] at hid
    · intro id hid
      simp [emptyFrame] at hid
    · intro id hid
      simp [emptyFrame] at hid
    · intro id hid
      simp [emptyFrame] at hid
    · intro id hid hle
      exact absurd (hlb id hid) (not_lt.mpr hle)
    · rw [undoLive_emptyFrame]
      exact h

theorem Inv_undo (s : index V) (h : Inv s) : Inv (undo s) := by
  rcases hs : s.stack with _ | ⟨f, rest⟩
  · rw [undo_nil s hs]
    exact h
  · rw [undo_cons s f rest hs]
    unfold Inv at h
    rw [hs] at h
    exact h.2.2

theorem Inv_undoTimes (n : Nat) : ∀ s : index V, Inv s → Inv (undoTimes n s) := by
  induction n with
  | zero => intro s h; exact h
  | succ n ih => intro s h; exact ih _ (Inv_undo s h)

theorem Inv_commit (s : index V) (r : Int) (h : Inv s) : Inv (commit r s) := by
  show framesInv s.live s.next_id
    ((s.stack.reverse.dropWhile (fun f => decide (f.revision ≤ r))).reverse)
  exact framesInv_append s.live s.next_id
    ((s.stack.reverse.dropWhile (fun f => decide (f.revision ≤ r))).reverse)
    ((s.stack.reverse.takeWhile (fun f => decide (f.revision ≤ r))).reverse)
    (by rw [← List.reverse_append, List.takeWhile_append_dropWhile, List.reverse_reverse]
        exact h)

theorem Inv_set_revision (s s' : index V) (r : Nat) (h : Inv s)
    (hok : set_revision r s = Except.ok s') : Inv s' := by
  unfold set_revision at hok
  by_cases h1 : s.stack.length ≠ 0
  · simp [h1] at hok
  · by_cases h2 : int64_max < r
    · simp [h1, h2] at hok
    · simp [h1, h2] at hok
      rw [← hok]
      exact h

theorem on_modify_next_id (id : Nat) (v : V) (s : index V) :
    (on_modify id v s).next_id = s.next_id := by
  unfold on_modify
  rcases s.stack with _ | ⟨f, rest⟩
  · rfl
  · dsimp only
    split
    · rfl
    · split <;> rfl

theorem on_remove_next_id (id : Nat) (v : V) (s : index V) :
    (on_remove id v s).next_id = s.next_id := by
  unfold on_remove
  rcases s.stack with _ | ⟨f, rest⟩
  · rfl
  · dsimp only
    split
    · rfl
    · split
      · rfl
      · split <;> rfl

theorem frameOk_topInv (live : Nat → Option V) (nid : Nat) (f : UndoState V)
    (hok : frameOk live nid f) : topInv f live := by
  intro id
  exact ⟨(hok.2.2.2.2.1 id).2.1, fun hr => Or.inl (hok.2.2.2.2.2.1 id hr)⟩

theorem frameOk_mapSet_live (live : Nat → Option V) (nid : Nat) (f : UndoState V)
    (id : Nat) (v w : V) (hok : frameOk live nid f) (hv : live id = some v) :
    frameOk (mapSet live id w) nid f := by
  obtain ⟨hub, hOld, hRem, hNew, hDisj, hF, hG1, hG2, hH⟩ := hok
  refine ⟨hub, hOld, hRem, hNew, hDisj, ?_, ?_, ?_, ?_⟩
  · intro j hr
    have hne : j ≠ id := by
      intro e
      subst e
      rw [hF j hr] at hv
      cases hv
    simpa [mapSet, hne] using hF j hr
  · intro j ho
    by_cases hj : j = id
    · subst hj
      simp [mapSet]
    · simpa [mapSet, hj] using hG1 j ho
  · intro j hj
    by_cases hj' : j = id
    · subst hj'
      simp [mapSet]
    · simpa [mapSet, hj'] using hG2 j hj
  · intro j hj hle
    by_cases hj' : j = id
    · subst hj'
      exact hH j (by simp [hv]) hle
    · exact hH j (by simpa [mapSet, hj'] using hj) hle

theorem Inv_emplace (c : Nat → V) (s : index V) (hl : (s.live s.next_id).isNone = true)
    (h : Inv s) : Inv (emplace c s) := by
  have hnone : s.live s.next_id = none := Option.isNone_iff_eq_none.mp hl
  have hlb : liveBound s.live s.next_id := framesInv_liveBound _ _ _ h
  rcases hs : s.stack with _ | ⟨f, rest⟩
  · have hst : (emplace c s).stack = [] := by simp [emplace, hnone, on_create, hs]
    have hlv : (emplace c s).live = mapSet s.live s.next_id (c s.next_id) := by
      simp [emplace, hnone, on_create, hs]
    have hni : (emplace c s).next_id = s.next_id + 1 := by
      simp [emplace, hnone, on_create, hs]
    unfold Inv
    rw [hst, hlv, hni]
    intro j hj
    by_cases hj' : j = s.next_id
    · subst hj'
      exact Nat.lt_succ_self _
    · exact Nat.lt_succ_of_lt (hlb j (by simpa [mapSet, hj'] using hj))
  · have h' : framesInv s.live s.next_id (f :: rest) := by
      unfold Inv at h
      rw [hs] at h
      exact h
    obtain ⟨_, hok, hrec⟩ := h'
    obtain ⟨h1, h2, h3, h4, h5⟩ :=
      emplace_step c s f rest hs hnone (frameOk_topInv _ _ _ hok)
    obtain ⟨hub, hOld, hRem, hNew, hDisj, hF, hG1, hG2, hH⟩ := hok
    have hni : (emplace c s).next_id = s.next_id + 1 := by
      simp [emplace, hnone, on_create, hs]
    unfold Inv
    rw [h1, h2, hni]
    refine ⟨?_, ?_, ?_⟩
    · intro j hj
      by_cases hj' : j = s.next_id
      · subst hj'
        exact Nat.lt_succ_self _
      · exact Nat.lt_succ_of_lt (hlb j (by simpa [mapSet, hj'] using hj))
    · refine ⟨le_trans hub (Nat.le_succ _), hOld, hRem, ?_, ?_, ?_, ?_, ?_, ?_⟩
      · intro j hj
        by_cases hj' : j = s.next_id
        · subst hj'
          exact ⟨hub, Nat.lt_succ_self _⟩
        · have := hNew j (by simpa [setInsert, hj'] using hj)
          exact ⟨this.1, Nat.lt_succ_of_lt this.2⟩
      · intro j
        by_cases hj' : j = s.next_id
        · subst hj'
          exact ⟨fun ho => absurd (hOld _ ho) (not_lt.mpr hub),
                 fun ho => absurd (hOld _ ho) (not_lt.mpr hub),
                 fun hr => absurd (hRem _ hr) (not_lt.mpr hub)⟩
        · obtain ⟨d1, d2, d3⟩ := hDisj j
          exact ⟨fun ho => by simpa [setInsert, hj'] using d1 ho, d2,
                 fun hr => by simpa [setInsert, hj'] using d3 hr⟩
      · intro j hr
        have hjb : j < f.old_next_id := hRem j hr
        have hj' : j ≠ s.next_id := by omega
        simpa [mapSet, hj'] using hF j hr
      · intro j ho
        by_cases hj' : j = s.next_id
        · subst hj'
          simp [mapSet]
        · simpa [mapSet, hj'] using hG1 j ho
      · intro j hj
        by_cases hj' : j = s.next_id
        · subst hj'
          simp [mapSet]
        · simpa [mapSet, hj'] using hG2 j (by simpa [setInsert, hj'] using hj)
      · intro j hj hle
        by_cases hj' : j = s.next_id
        · subst hj'
          simp [setInsert]
        · have hjl : (s.live j).isSome := by simpa [mapSet, hj'] using hj
          simpa [setInsert, hj'] using hH j hjl hle
    · rw [← h2, h5]
      exact hrec

theorem Inv_modify (id : Nat) (m : V → V) (s : index V) (hl : (s.live id).isSome)
    (h : Inv s) : Inv (modify id m s) := by
  obtain ⟨v, hv⟩ := Option.isSome_iff_exists.mp hl
  have hlb : liveBound s.live s.next_id := framesInv_liveBound _ _ _ h
  have hlv : (modify id m s).live = mapSet s.live id (m v) := by
    simp [modify, hv, on_modify_live]
  have hni : (modify id m s).next_id = s.next_id := by
    simp [modify, hv, on_modify_next_id]
  have hlb' : liveBound (mapSet s.live id (m v)) s.next_id := by
    intro j hj
    by_cases hj' : j = id
    · subst hj'
      exact hlb j (by simp [hv])
    · exact hlb j (by simpa [mapSet, hj'] using hj)
  rcases hs : s.stack with _ | ⟨f, rest⟩
  · have hst : (modify id m s).stack = [] := modify_stack_empty s id m hs
    unfold Inv
    rw [hst, hlv, hni]
    exact hlb'
  · have h' : framesInv s.live s.next_id (f :: rest) := by
      unfold Inv at h
      rw [hs] at h
      exact h
    obtain ⟨_, hok, hrec⟩ := h'
    obtain ⟨f', h1, h2, h3, h4, h5⟩ :=
      modify_step id m v s f rest hs hv (frameOk_topInv _ _ _ hok)
    unfold Inv
    rw [h1, hlv, hni]
    refine ⟨hlb', ?_, ?_⟩
    · by_cases hnew : f.new_ids id = true
      · have hf' : f' = f := by
          have he := modify_stack_skip s id m f rest hs (Or.inl hnew)
          rw [hs, h1] at he
          exact (List.cons_eq_cons.mp he).1
        rw [hf']
        exact frameOk_mapSet_live _ _ _ _ v _ hok hv
      · have hnewF : f.new_ids id = false := by simpa using hnew
        rcases hold : f.old_values id with _ | p
        · -- first capture
          obtain ⟨hub, hOld, hRem, hNew, hDisj, hF, hG1, hG2, hH⟩ := hok
          have hf' : f' = { f with old_values := mapEmplace f.old_values id v } := by
            have he := modify_stack_capture s id v m f rest hs hv hnewF hold
            rw [h1] at he
            exact (List.cons_eq_cons.mp he).1
          rw [hf']
          have hrem : f.removed_values id = none := by
            rcases hfr : f.removed_values id with _ | w
            · rfl
            · exfalso
              rw [hF id (by simp [hfr])] at hv
              cases hv
          have hidlt : id < f.old_next_id := by
            by_contra hcon
            have := hH id (by simp [hv]) (Nat.le_of_not_lt hcon)
            rw [hnewF] at this
            cases this
          refine ⟨hub, ?_, hRem, hNew, ?_, ?_, ?_, ?_, ?_⟩
          · intro j ho
            by_cases hj : j = id
            · subst hj
              exact hidlt
            · exact hOld j (by simpa [mapEmplace, hj] using ho)
          · intro j
            by_cases hj : j = id
            · subst hj
              exact ⟨fun _ => hnewF, fun _ => hrem, fun hr => (hDisj j).2.2 hr⟩
            · obtain ⟨d1, d2, d3⟩ := hDisj j
              exact ⟨fun ho => d1 (by simpa [mapEmplace, hj] using ho),
                     fun ho => d2 (by simpa [mapEmplace, hj] using ho), d3⟩
          · intro j hr
            have hne : j ≠ id := by
              intro e
              subst e
              rw [hrem] at hr
              cases hr
            simpa [mapSet, hne] using hF j hr
          · intro j ho
            by_cases hj : j = id
            · subst hj
              simp [mapSet]
            · have := hG1 j (by simpa [mapEmplace, hj] using ho)
              simpa [mapSet, hj] using this
          · intro j hj
            by_cases hj' : j = id
            · subst hj'
              simp [mapSet]
            · simpa [mapSet, hj'] using hG2 j hj
          · intro j hj hle
            by_cases hj' : j = id
            · subst hj'
              exact absurd hle (not_le.mpr hidlt)
            · exact hH j (by simpa [mapSet, hj'] using hj) hle
        · -- already captured
          have hf' : f' = f := by
            have he := modify_stack_skip s id m f rest hs (Or.inr (by simp [hold]))
            rw [hs, h1] at he
            exact (List.cons_eq_cons.mp he).1
          rw [hf']
          exact frameOk_mapSet_live _ _ _ _ v _ hok hv
    · rw [← hlv, h5, h2]
      exact hrec

theorem Inv_remove (id : Nat) (s : index V) (hl : (s.live id).isSome) (h : Inv s) :
    Inv (remove id s) := by
  obtain ⟨v, hv⟩ := Option.isSome_iff_exists.mp hl
  have hlb := framesInv_liveBound _ _ _ h
  have hlv : (remove id s).live = mapErase s.live id := by
    simp [remove, hv, on_remove_live]
  have hni : (remove id s).next_id = s.next_id := by
    simp [remove, hv, on_remove_next_id]
  have hlb' : liveBound (mapErase s.live id) s.next_id := by
    intro j hj
    by_cases hj' : j = id
    · subst hj'
      simp [mapErase] at hj
    · exact hlb j (by simpa [mapErase, hj'] using hj)
  rcases hs : s.stack with _ | ⟨f, rest⟩
  · have hst : (remove id s).stack = [] := by simp [remove, hv, on_remove, hs]
    unfold Inv
    rw [hst, hlv, hni]
    exact hlb'
  · have h' : framesInv s.live s.next_id (f :: rest) := by
      unfold Inv at h
      rw [hs] at h
      exact h
    obtain ⟨_, hok, hrec⟩ := h'
    obtain ⟨f', h1, h2, h3, h4, h5⟩ :=
      remove_step id v s f rest hs hv (frameOk_topInv _ _ _ hok)
    unfold Inv
    rw [h1, hlv, hni]
    refine ⟨hlb', ?_, ?_⟩
    · obtain ⟨hub, hOld, hRem, hNew, hDisj, hF, hG1, hG2, hH⟩ := hok
      by_cases hnew : f.new_ids id = true
      · have hf' : f' = { f with new_ids := setErase f.new_ids id } := by
          have he : (remove id s).stack =
              { f with new_ids := setErase f.new_ids id } :: rest := by
            simp [remove, hv, on_remove, hs, hnew]
          rw [h1] at he
          exact (List.cons_eq_cons.mp he).1
        rw [hf']
        refine ⟨hub, hOld, hRem, ?_, ?_, ?_, ?_, ?_, ?_⟩
        · intro j hj
          by_cases hj' : j = id
          · subst hj'
            simp [setErase] at hj
          · exact hNew j (by simpa [setErase, hj'] using hj)
        · intro j
          obtain ⟨d1, d2, d3⟩ := hDisj j
          by_cases hj' : j = id
          · subst hj'
            exact ⟨fun _ => by simp [setErase], d2, fun _ => by simp [setErase]⟩
          · exact ⟨fun ho => by simp [setErase, hj', d1 ho], d2,
                   fun hr => by simp [setErase, hj', d3 hr]⟩
        · intro j hr
          by_cases hj' : j = id
          · subst hj'
            simp [mapErase]
          · simpa [mapErase, hj'] using hF j hr
        · intro j ho
          by_cases hj' : j = id
          · subst hj'
            exact absurd ((hDisj j).1 ho) (by simp [hnew])
          · simpa [mapErase, hj'] using hG1 j ho
        · intro j hj
          by_cases hj' : j = id
          · subst hj'
            simp [setErase] at hj
          · simpa [mapErase, hj'] using hG2 j (by simpa [setErase, hj'] using hj)
        · intro j hj hle
          by_cases hj' : j = id
          · subst hj'
            simp [mapErase] at hj
          · simpa [setErase, hj'] using hH j (by simpa [mapErase, hj'] using hj) hle
      · have hnewF : f.new_ids id = false := by simpa using hnew
        rcases hold : f.old_values id with _ | p
        · rcases hfr : f.removed_values id with _ | w
          · -- (d) capture the current value as removal pre-image
            have hf' : f' =
                { f with removed_values := mapEmplace f.removed_values id v } := by
              have he : (remove id s).stack =
                  { f with removed_values := mapEmplace f.removed_values id v } :: rest := by
                simp [remove, hv, on_remove, hs, hnewF, hold, hfr]
              rw [h1] at he
              exact (List.cons_eq_cons.mp he).1
            rw [hf']
            have hidlt : id < f.old_next_id := by
              by_contra hcon
              have := hH id (by simp [hv]) (Nat.le_of_not_lt hcon)
              rw [hnewF] at this
              cases this
            refine ⟨hub, hOld, ?_, hNew, ?_, ?_, ?_, ?_, ?_⟩
            · intro j hr
              by_cases hj' : j = id
              · subst hj'
                exact hidlt
              · exact hRem j (by simpa [mapEmplace, hj'] using hr)
            · intro j
              obtain ⟨d1, d2, d3⟩ := hDisj j
              by_cases hj' : j = id
              · subst hj'
                refine ⟨d1, fun ho => ?_, fun _ => hnewF⟩
                rw [hold] at ho
                cases ho
              · refine ⟨d1, fun ho => ?_,
                  fun hr => d3 (by simpa [mapEmplace, hj'] using hr)⟩
                simpa [mapEmplace, hj'] using d2 ho
            · intro j hr
              by_cases hj' : j = id
              · subst hj'
                simp [mapErase]
              · simpa [mapErase, hj'] using hF j (by simpa [mapEmplace, hj'] using hr)
            · intro j ho
              by_cases hj' : j = id
              · subst hj'
                rw [hold] at ho
                cases ho
              · simpa [mapErase, hj'] using hG1 j ho
            · intro j hj
              by_cases hj' : j = id
              · subst hj'
                rw [hnewF] at hj
                cases hj
              · simpa [mapErase, hj'] using hG2 j hj
            · intro j hj hle
              by_cases hj' : j = id
              · subst hj'
                simp [mapErase] at hj
              · exact hH j (by simpa [mapErase, hj'] using hj) hle
          · -- (c) impossible: a removed id cannot be live
            exfalso
            rw [hF id (by simp [hfr])] at hv
            cases hv
        · -- (b) move the captured pre-image into removed_values
          have hrem : f.removed_values id = none := (hDisj id).2.1 (by simp [hold])
          have hf' : f' =
              { f with removed_values := mapEmplace f.removed_values id p
                       old_values := mapErase f.old_values id } := by
            have he : (remove id s).stack =
                { f with removed_values := mapEmplace f.removed_values id p
                         old_values := mapErase f.old_values id } :: rest := by
              simp [remove, hv, on_remove, hs, hnewF, hold]
            rw [h1] at he
            exact (List.cons_eq_cons.mp he).1
          rw [hf']
          refine ⟨hub, ?_, ?_, hNew, ?_, ?_, ?_, ?_, ?_⟩
          · intro j ho
            by_cases hj' : j = id
            · subst hj'
              simp [mapErase] at ho
            · exact hOld j (by simpa [mapErase, hj'] using ho)
          · intro j hr
            by_cases hj' : j = id
            · subst hj'
              exact hOld j (by simp [hold])
            · exact hRem j (by simpa [mapEmplace, hj'] using hr)
          · intro j
            obtain ⟨d1, d2, d3⟩ := hDisj j
            by_cases hj' : j = id
            · subst hj'
              refine ⟨fun ho => ?_, fun ho => ?_, fun _ => hnewF⟩
              · simp [mapErase] at ho
              · simp [mapErase] at ho
            · refine ⟨fun ho => d1 (by simpa [mapErase, hj'] using ho), fun ho => ?_,
                fun hr => d3 (by simpa [mapEmplace, hj'] using hr)⟩
              simpa [mapEmplace, hj'] using d2 (by simpa [mapErase, hj'] using ho)
          · intro j hr
            by_cases hj' : j = id
            · subst hj'
              simp [mapErase]
            · simpa [mapErase, hj'] using hF j (by simpa [mapEmplace, hj'] using hr)
          · intro j ho
            by_cases hj' : j = id
            · subst hj'
              simp [mapErase] at ho
            · simpa [mapErase, hj'] using hG1 j (by simpa [mapErase, hj'] using ho)
          · intro j hj
            by_cases hj' : j = id
            · subst hj'
              have hjt : f.new_ids j = true := hj
              rw [(hDisj j).1 (by simp [hold])] at hjt
              cases hjt
            · simpa [mapErase, hj'] using hG2 j hj
          · intro j hj hle
            by_cases hj' : j = id
            · subst hj'
              simp [mapErase] at hj
            · exact hH j (by simpa [mapErase, hj'] using hj) hle
    · rw [← hlv, h5, h2]
      exact hrec

theorem Inv_applyOp (op : Op V) (s : index V) (hl : legalOp op s = true) (h : Inv s) :
    Inv (applyOp op s) := by
  cases op with
  | emplace c => exact Inv_emplace c s (by simpa [legalOp] using hl) h
  | modify id m => exact Inv_modify id m s (by simpa [legalOp] using hl) h
  | remove id => exact Inv_remove id s (by simpa [legalOp] using hl) h

theorem undoLive_isSome_of (T : UndoState V) (live : Nat → Option V) (j : Nat)
    (h : (T.removed_values j).isSome ∨ (T.old_values j).isSome) :
    (undoLive T live j).isSome := by
  rcases e2 : T.removed_values j with _ | z <;>
    rcases e1 : T.old_values j with _ | y <;>
      rcases e5 : T.new_ids j with _ | _ <;>
        rcases el : live j with _ | u <;>
          simp_all [undoLive]

theorem squash_new_le (T P : UndoState V) (j : Nat)
    (h : (squashFrames T P).new_ids j = true) :
    P.new_ids j = true ∨ T.new_ids j = true := by
  simp only [squashFrames] at h
  rcases e2 : T.removed_values j with _ | z <;>
    rcases e6 : P.new_ids j with _ | _ <;>
      rcases e5 : T.new_ids j with _ | _ <;>
        simp_all

theorem squash_new_false (T P : UndoState V) (j : Nat)
    (hP : P.new_ids j = false) (hT : T.new_ids j = false) :
    (squashFrames T P).new_ids j = false := by
  simp only [squashFrames]
  rcases e2 : T.removed_values j with _ | z <;>
    simp_all

theorem squash_old_cases (T P : UndoState V) (j : Nat)
    (h : ((squashFrames T P).old_values j).isSome) :
    (P.old_values j).isSome ∨ ((T.old_values j).isSome ∧ P.new_ids j = false) := by
  simp only [squashFrames] at h
  rcases e1 : T.old_values j with _ | y <;>
    rcases e2 : T.removed_values j with _ | z <;>
      rcases e3 : P.old_values j with _ | x <;>
        rcases e6 : P.new_ids j with _ | _ <;>
          rcases e5 : T.new_ids j with _ | _ <;>
            simp_all

theorem squash_rem_cases (T P : UndoState V) (j : Nat)
    (h : ((squashFrames T P).removed_values j).isSome) :
    (P.removed_values j).isSome ∨ (P.old_values j).isSome ∨
      (((T.removed_values j).isSome ∨ (T.old_values j).isSome) ∧
        P.new_ids j = false) := by
  simp only [squashFrames] at h
  rcases e1 : T.old_values j with _ | y <;>
    rcases e2 : T.removed_values j with _ | z <;>
      rcases e3 : P.old_values j with _ | x <;>
        rcases e4 : P.removed_values j with _ | w <;>
          rcases e6 : P.new_ids j with _ | _ <;>
            rcases e5 : T.new_ids j with _ | _ <;>
              simp_all

theorem squash_undoLive (T P : UndoState V) (live : Nat → Option V)
    (hdT : disjointFrame T) (hdP : disjointFrame P)
    (hTF : ∀ id : Nat, (T.removed_values id).isSome → live id = none)
    (hPF : ∀ id : Nat, (P.removed_values id).isSome → undoLive T live id = none) :
    undoLive (squashFrames T P) live = undoLive P (undoLive T live) := by
  funext j
  obtain ⟨dT1, dT2, dT3⟩ := hdT j
  obtain ⟨dP1, dP2, dP3⟩ := hdP j
  have tf := hTF j
  have pf := hPF j
  simp only [undoLive, squashFrames] at pf ⊢
  rcases e1 : T.old_values j with _ | y <;>
    rcases e2 : T.removed_values j with _ | z <;>
      rcases e3 : P.old_values j with _ | x <;>
        rcases e4 : P.removed_values j with _ | w <;>
          rcases e5 : T.new_ids j with _ | _ <;>
            rcases e6 : P.new_ids j with _ | _ <;>
              simp_all

set_option maxHeartbeats 3200000 in
theorem squash_pointwise (T P : UndoState V) (live : Nat → Option V) (nid j : Nat)
    (hTub : T.old_next_id ≤ nid)
    (hPub : P.old_next_id ≤ T.old_next_id)
    (bTo : (T.old_values j).isSome → j < T.old_next_id)
    (bTr : (T.removed_values j).isSome → j < T.old_next_id)
    (bTn : T.new_ids j = true → T.old_next_id ≤ j ∧ j < nid)
    (dT1 : (T.old_values j).isSome → T.new_ids j = false)
    (dT2 : (T.old_values j).isSome → T.removed_values j = none)
    (dT3 : (T.removed_values j).isSome → T.new_ids j = false)
    (fT : (T.removed_values j).isSome → live j = none)
    (g1T : (T.old_values j).isSome → (live j).isSome)
    (g2T : T.new_ids j = true → (live j).isSome)
    (hhT : (live j).isSome → T.old_next_id ≤ j → T.new_ids j = true)
    (bPo : (P.old_values j).isSome → j < P.old_next_id)
    (bPr : (P.removed_values j).isSome → j < P.old_next_id)
    (bPn : P.new_ids j = true → P.old_next_id ≤ j ∧ j < T.old_next_id)
    (dP1 : (P.old_values j).isSome → P.new_ids j = false)
    (dP2 : (P.old_values j).isSome → P.removed_values j = none)
    (dP3 : (P.removed_values j).isSome → P.new_ids j = false)
    (fP : (P.removed_values j).isSome → undoLive T live j = none)
    (g1P : (P.old_values j).isSome → (undoLive T live j).isSome)
    (g2P : P.new_ids j = true → (undoLive T live j).isSome)
    (hhP : (undoLive T live j).isSome → P.old_next_id ≤ j → P.new_ids j = true) :
    (((squashFrames T P).old_values j).isSome → j < P.old_next_id) ∧
    (((squashFrames T P).removed_values j).isSome → j < P.old_next_id) ∧
    ((squashFrames T P).new_ids j = true → P.old_next_id ≤ j ∧ j < nid) ∧
    (((squashFrames T P).old_values j).isSome → (squashFrames T P).new_ids j = false) ∧
    (((squashFrames T P).old_values j).isSome →
      (squashFrames T P).removed_values j = none) ∧
    (((squashFrames T P).removed_values j).isSome →
      (squashFrames T P).new_ids j = false) ∧
    (((squashFrames T P).removed_values j).isSome → live j = none) ∧
    (((squashFrames T P).old_values j).isSome → (live j).isSome) ∧
    ((squashFrames T P).new_ids j = true → (live j).isSome) ∧
    ((live j).isSome → P.old_next_id ≤ j → (squashFrames T P).new_ids j = true) := by
  simp only [undoLive] at fP g1P g2P hhP
  simp only [squashFrames]
  rcases e1 : T.old_values j with _ | y <;>
    rcases e2 : T.removed_values j with _ | z <;>
      rcases e3 : P.old_values j with _ | x <;>
        rcases e4 : P.removed_values j with _ | w <;>
          rcases e5 : T.new_ids j with _ | _ <;>
            rcases e6 : P.new_ids j with _ | _ <;>
              rcases el : live j with _ | u <;>
                simp_all <;> omega

theorem frameOk_squash (T P : UndoState V) (live : Nat → Option V) (nid : Nat)
    (hokT : frameOk live nid T)
    (hokP : frameOk (undoLive T live) T.old_next_id P) :
    frameOk live nid (squashFrames T P) := by
  obtain ⟨hTub, hTo, hTr, hTn, hTd, hTF, hTG1, hTG2, hTH⟩ := hokT
  obtain ⟨hPub, hPo, hPr, hPn, hPd, hPF, hPG1, hPG2, hPH⟩ := hokP
  have key := fun j => squash_pointwise T P live nid j hTub hPub (hTo j) (hTr j) (hTn j)
    ((hTd j).1) ((hTd j).2.1) ((hTd j).2.2) (hTF j) (hTG1 j) (hTG2 j) (hTH j)
    (hPo j) (hPr j) (hPn j) ((hPd j).1) ((hPd j).2.1) ((hPd j).2.2) (hPF j)
    (hPG1 j) (hPG2 j) (hPH j)
  exact ⟨le_trans hPub hTub, fun j => (key j).1, fun j => (key j).2.1,
    fun j => (key j).2.2.1,
    fun j => ⟨(key j).2.2.2.1, (key j).2.2.2.2.1, (key j).2.2.2.2.2.1⟩,
    fun j => (key j).2.2.2.2.2.2.1, fun j => (key j).2.2.2.2.2.2.2.1,
    fun j => (key j).2.2.2.2.2.2.2.2.1, fun j => (key j).2.2.2.2.2.2.2.2.2⟩


theorem squash_nil (s : index V) (hs : s.stack = []) : squash s = s := by
  cases s
  subst hs
  rfl

theorem squash_single (s : index V) (f : UndoState V) (hs : s.stack = [f]) :
    squash s = { s with stack := [], revision := s.revision - 1 } := by
  cases s
  subst hs
  rfl

theorem squash_cons (s : index V) (T P : UndoState V) (rest : List (UndoState V))
    (hs : s.stack = T :: P :: rest) :
    squash s = { s with stack := squashFrames T P :: rest,
                        revision := s.revision - 1 } := by
  cases s
  subst hs
  rfl

theorem Inv_squash (s : index V) (h : Inv s) : Inv (squash s) := by
  rcases hs : s.stack with _ | ⟨T, rest0⟩
  · rw [squash_nil s hs]
    exact h
  · rcases rest0 with _ | ⟨P, rest⟩
    · rw [squash_single s T hs]
      show liveBound s.live s.next_id
      exact framesInv_liveBound _ _ _ h
    · rw [squash_cons s T P rest hs]
      have h' : framesInv s.live s.next_id (T :: P :: rest) := by
        unfold Inv at h
        rw [hs] at h
        exact h
      obtain ⟨hlb, hokT, _, hokP, hrec⟩ := h'
      show framesInv s.live s.next_id (squashFrames T P :: rest)
      refine ⟨hlb, frameOk_squash T P s.live s.next_id hokT hokP, ?_⟩
      have he : undoLive (squashFrames T P) s.live = undoLive P (undoLive T s.live) :=
        squash_undoLive T P s.live hokT.2.2.2.2.1 hokP.2.2.2.2.1
          hokT.2.2.2.2.2.1 hokP.2.2.2.2.2.1
      rw [he]
      exact hrec

theorem Inv_reachable (s : index V) (h : Reachable s) : Inv s := by
  induction h with
  | init => exact Inv_initial
  | step_op s op _ hl ih => exact Inv_applyOp op s hl ih
  | step_start s e _ ih => exact Inv_start s e ih
  | step_undo s _ ih => exact Inv_undo s ih
  | step_squash s _ ih => exact Inv_squash s ih
  | step_commit s r _ ih => exact Inv_commit s r ih
  | step_undo_all s _ ih => exact Inv_undoTimes s.stack.length s ih
  | step_set_revision s s' r _ hok ih => exact Inv_set_revision s s' r ih hok

/-- C8: after every public operation (that is, in every state reachable
from a fresh index by legal mutations and session operations), every
frame on the undo stack has pairwise id-disjoint `old_values`,
`removed_values` and `new_ids`. -/
theorem reachable_frames_disjoint (s : index V) (h : Reachable s) :
    ∀ f ∈ s.stack, disjointFrame f :=
  framesInv_disjoint s.live s.next_id s.stack (Inv_reachable s h)

theorem reachable_frames_disjoint_witness :
    (emptyFrame 0 1 : UndoState Nat) ∈
        (start_undo_session true (index.initial Nat)).2.stack ∧
      disjointFrame (emptyFrame 0 1 : UndoState Nat) :=
  have hm : (emptyFrame 0 1 : UndoState Nat) ∈
      (start_undo_session true (index.initial Nat)).2.stack := by
    simp [start_undo_session, index.initial, emptyFrame]
  ⟨hm, reachable_frames_disjoint (start_undo_session true (index.initial Nat)).2
    (Reachable.step_start (index.initial Nat) true Reachable.init)
    (emptyFrame 0 1) hm⟩

end Chainrocks
